import Mathlib

/-!
Shallow embedding of the semantic document store in `embedding/embedding.go`
of vtuson/slackagent, together with proofs of the specified properties.

Modelling conventions:
* `float32` values are modelled as exact rationals (`ℚ`) wherever the code
  performs only ring operations and comparisons (dot products, thresholds),
  and as real numbers (`ℝ`) where a square root is taken (`NormalizeEmbedding`).
* The embedding provider (`EmbeddingProvider` interface, possibly nil) is
  modelled as an `Option` of a function from the query text to either an
  error message or a vector, exactly the two outcomes of `GetEmbedding`.
* File-system reads/writes, the RFC3339 parser and the wall clock are external
  collaborators (Go standard library); they enter the model as explicit
  function parameters, and the store code is embedded faithfully around them.
* The Go `for` loops over indices are embedded as structurally recursive
  functions over the same data; the loop in `ChunkText`, whose step can be zero or
  negative, is embedded with explicit fuel so that its divergence is provable.
-/

namespace SlackAgent

/-- Field of `EmbeddingDocument` in embedding.go: id, content, url, title,
embedding vector (float32 slice, modelled as `List ℚ`), crawl depth. -/
structure EmbeddingDocument where
  id : String
  content : String
  url : String
  title : String
  embedding : List ℚ
  depth : Int
deriving DecidableEq, Repr

/-- The persistent state of `EmbeddingStore` in embedding.go: the ordered
document sequence, the RFC3339 `last_updated` string (empty = never saved)
and the backing file path. The runtime handles (hugot session, pipeline)
and the mutex are not part of the sequential state. -/
structure EmbeddingStore where
  documents : List EmbeddingDocument
  lastUpdated : String
  filePath : String
deriving DecidableEq, Repr

/-- An embedding provider as the store sees it: `GetEmbedding` either fails
with an error message or returns a vector. `none` models a nil provider. -/
def Provider : Type := Option (String → Except String (List ℚ))

/-- Embeds `EmbeddingStore.GetEmbedding`: a nil provider is an error
("embedding provider not initialized"), otherwise the provider is called. -/
def getEmbedding (provider : Provider) (text : String) : Except String (List ℚ) :=
  match provider with
  | none => Except.error "embedding provider not initialized"
  | some p => p text

/-- Embeds `CosineSimilarity` from embedding.go: length mismatch yields
exactly 0, otherwise the plain dot product (the code assumes unit vectors). -/
def CosineSimilarity (a b : List ℚ) : ℚ :=
  if a.length ≠ b.length then 0
  else (a.zip b).foldl (fun acc p => acc + p.1 * p.2) 0

/-- Field-for-field copy of the Go `SearchResult`: a document paired with its
similarity score. -/
structure SearchResult where
  document : EmbeddingDocument
  similarity : ℚ
deriving DecidableEq, Repr

/-- The filtering loop of `Search`: score every document against the query
embedding and keep, in document order, those with `similarity >= threshold`. -/
def scoreAndFilter (queryEmbedding : List ℚ) (threshold : ℚ) :
    List EmbeddingDocument → List SearchResult
  | [] => []
  | d :: ds =>
    let sim := CosineSimilarity queryEmbedding d.embedding
    if threshold ≤ sim then ⟨d, sim⟩ :: scoreAndFilter queryEmbedding threshold ds
    else scoreAndFilter queryEmbedding threshold ds

/-- Structural form of the inner loop of the exchange sort in `Search`
(`for j := i+1 ...; if results[j].Similarity > results[i].Similarity swap`):
given the current occupant `x` of slot `i` and the remaining slots, it returns
the element that ends up in slot `i` (the maximum) and the remaining slots
as the loop leaves them. -/
def bubbleMax (x : SearchResult) : List SearchResult → SearchResult × List SearchResult
  | [] => (x, [])
  | y :: ys =>
    if x.similarity < y.similarity then
      let p := bubbleMax y ys
      (p.1, x :: p.2)
    else
      let p := bubbleMax x ys
      (p.1, y :: p.2)

theorem bubbleMax_snd_length (x : SearchResult) (l : List SearchResult) :
    (bubbleMax x l).2.length = l.length := by
  induction l generalizing x with
  | nil => rfl
  | cons y ys ih =>
    simp only [bubbleMax]
    split <;> simp [ih]

/-- Recursion skeleton for `exchangeSort`, structural on a fuel argument so
that concrete runs reduce definitionally; `exchangeSort` supplies fuel equal
to the list length, which `bubbleMax` preserves, so the fuel never runs dry. -/
def exchangeSortGo : Nat → List SearchResult → List SearchResult
  | 0, _ => []
  | _ + 1, [] => []
  | fuel + 1, x :: xs =>
    let p := bubbleMax x xs
    p.1 :: exchangeSortGo fuel p.2

/-- The outer loop of the sort in `Search`: repeatedly move the maximum of the
remaining slots into the next position. Descending order. -/
def exchangeSort (l : List SearchResult) : List SearchResult :=
  exchangeSortGo l.length l

/-- Embeds `Search` from embedding.go: empty store short-circuits to an empty
result with no error; a provider failure propagates; otherwise score, filter
by threshold (inclusive), sort descending with the exchange sort, and
truncate to `topK` when `topK > 0` and more results remain. -/
def search (provider : Provider) (es : EmbeddingStore) (_query : String)
    (topK : Int) (threshold : ℚ) : Except String (List SearchResult) :=
  if es.documents.isEmpty then Except.ok []
  else
    match getEmbedding provider _query with
    | Except.error e => Except.error e
    | Except.ok queryEmbedding =>
      let results := scoreAndFilter queryEmbedding threshold es.documents
      let sorted := exchangeSort results
      if 0 < topK ∧ topK < (sorted.length : Int) then Except.ok (sorted.take topK.toNat)
      else Except.ok sorted

/-- L2 norm as computed by `NormalizeEmbedding`: square root of the running
sum of squares. -/
noncomputable def l2Norm (v : List ℝ) : ℝ :=
  Real.sqrt (v.foldl (fun s x => s + x * x) 0)

/-- Embeds `NormalizeEmbedding` from embedding.go: if the L2 norm is exactly
zero the input is returned unchanged, otherwise each component is divided by
the norm. -/
noncomputable def NormalizeEmbedding (embedding : List ℝ) : List ℝ :=
  let norm := l2Norm embedding
  if norm = 0 then embedding
  else embedding.map (fun v => v / norm)

/-- Embeds `AddDocument`: append the document to the sequence. Nothing else
in the store changes. -/
def addDocument (es : EmbeddingStore) (doc : EmbeddingDocument) : EmbeddingStore :=
  { es with documents := es.documents ++ [doc] }

/-- Embeds `Clear`: empty document sequence, timestamp reset to the empty
string. -/
def clear (es : EmbeddingStore) : EmbeddingStore :=
  { es with documents := [], lastUpdated := "" }

/-- The Go `time.Hour` in nanoseconds (`time.Duration` counts nanoseconds). -/
def nsPerHour : Int := 3600 * 1000000000

/-- Embeds `IsStale`: stale when never saved (`lastUpdated = ""`), when the
RFC3339 parse fails, or when the age `now - parsed` strictly exceeds
`days * 24 * time.Hour`. The parser and clock are external collaborators,
passed as parameters (`parseRFC3339` returns the parsed instant in
nanoseconds, `now` is the current instant in nanoseconds). -/
def isStale (parseRFC3339 : String → Option Int) (now : Int)
    (es : EmbeddingStore) (days : Int) : Bool :=
  if es.lastUpdated = "" then true
  else
    match parseRFC3339 es.lastUpdated with
    | none => true
    | some t => decide (days * 24 * nsPerHour < now - t)

/-- Outcome of `os.ReadFile` as `Load` distinguishes it: the file does not
exist, the read failed for another reason, or the contents were read. -/
inductive ReadResult where
  | notExist
  | readFailure
  | ok (data : String)
deriving DecidableEq, Repr

/-- Embeds `Load`: a missing file is not an error (the store is left as it
is, i.e. a fresh store stays empty); any other read failure is an error; a
JSON unmarshal failure is an error; otherwise the decoded documents and
timestamp replace those of the store. The file system and the JSON decoder are
external collaborators, passed as parameters. -/
def load (readFile : String → ReadResult)
    (unmarshal : String → Option (List EmbeddingDocument × String))
    (es : EmbeddingStore) : Except String EmbeddingStore :=
  match readFile es.filePath with
  | ReadResult.notExist => Except.ok es
  | ReadResult.readFailure => Except.error "failed to read embeddings file"
  | ReadResult.ok data =>
    match unmarshal data with
    | none => Except.error "failed to unmarshal embeddings"
    | some p => Except.ok { es with documents := p.1, lastUpdated := p.2 }

/-- Embeds `Save`: the timestamp is stamped to the current time first, then
the serialized store is written; a write failure is reported as an error but
the stamped state remains (Go mutates the receiver before writing). `now` is
the formatted current time, `writeOk` the outcome of `os.WriteFile`. -/
def save (now : String) (writeOk : Bool) (es : EmbeddingStore) :
    EmbeddingStore × Except String Unit :=
  let stamped := { es with lastUpdated := now }
  (stamped, if writeOk then Except.ok () else Except.error "failed to write embeddings file")

/-- Worker for `wordsOf`: scans the characters, accumulating the current
word in reverse; a whitespace character ends the current word (if any), and
runs of whitespace produce no empty words. -/
def fieldsAux (cur : List Char) : List Char → List String
  | [] => if cur = [] then [] else [String.mk cur.reverse]
  | c :: cs =>
    if c.isWhitespace then
      if cur = [] then fieldsAux [] cs
      else String.mk cur.reverse :: fieldsAux [] cs
    else fieldsAux (c :: cur) cs

/-- Embeds the Go function `strings.Fields` (split around runs of whitespace, no empty
fields). The `strings.TrimSpace` and `\s+ -> " "` regex replacement that
`ChunkText` performs first do not change the field list, so the word list of `ChunkText` is exactly this. -/
def wordsOf (text : String) : List String :=
  fieldsAux [] text.toList

/-- Outcome of running the loop of `ChunkText`: a result list, a Go slice-bounds
panic (`words[i:end]` with `i < 0` or `end < i`), or fuel exhaustion —
the loop in the code has no termination guard, so the embedding makes
non-termination observable. -/
inductive ChunkOut where
  | out (chunks : List String)
  | panic
  | fuelOut
deriving DecidableEq, Repr

/-- Fuel-indexed embedding of the loop in `ChunkText`
(`for i := 0; i < len(words); i += chunkSize - overlap`): at index `i`
(a Go `int`, so possibly negative) compute `end := min(i+chunkSize, len)`,
slice `words[i:end]` (a panic if the bounds are invalid, exactly the Go
behaviour), append the joined chunk, break when `end >= len`, otherwise
advance by `chunkSize - overlap`. -/
def chunkLoop (words : List String) (chunkSize overlap : Int) :
    Nat → Int → List String → ChunkOut
  | 0, _, _ => ChunkOut.fuelOut
  | fuel + 1, i, acc =>
    if i < (words.length : Int) then
      let e : Int := if (words.length : Int) < i + chunkSize then (words.length : Int)
                     else i + chunkSize
      if 0 ≤ i ∧ i ≤ e then
        let chunk := " ".intercalate ((words.drop i.toNat).take (e - i).toNat)
        let acc' := acc ++ [chunk]
        if (words.length : Int) ≤ e then ChunkOut.out acc'
        else chunkLoop words chunkSize overlap fuel (i + (chunkSize - overlap)) acc'
      else ChunkOut.panic
    else ChunkOut.out acc

/-- Embeds `ChunkText` from embedding.go: normalize whitespace, split into
words (empty word list yields an empty chunk list, not an error), then run
the chunking loop from index 0. The fuel `words.length + 1` is enough for
every terminating run of the Go loop (each surviving iteration advances `i`
by at least one when the parameters are sane, and otherwise the loop exits
or panics within one iteration), so `fuelOut` appears exactly when the Go
loop never terminates. -/
def ChunkText (text : String) (chunkSize overlap : Int) : ChunkOut :=
  let words := wordsOf text
  if words.isEmpty then ChunkOut.out []
  else chunkLoop words chunkSize overlap (words.length + 1) 0 []

/-- Worker for `windowChunks`, structural on fuel so concrete runs reduce
definitionally. A window of `chunkSize` words is emitted, then `step` words
are dropped; a window reaching the end of the text is the final chunk.
`step = 0` is mapped to `[]` — it is never used, since the spec requires
`overlap < chunkSize`. -/
def windowChunksGo : Nat → List String → Nat → Nat → List String
  | 0, _, _, _ => []
  | fuel + 1, words, chunkSize, step =>
    if step = 0 then []
    else if words = [] then []
    else if words.length ≤ chunkSize then [" ".intercalate words]
    else " ".intercalate (words.take chunkSize) ::
      windowChunksGo fuel (words.drop step) chunkSize step

/-- Modelled from the spec (§4.4): windows of `chunkSize` words advancing by
`step = chunkSize - overlap` words per step; the final chunk is whatever
remains once the window would overrun the text, and iteration stops once the
window reaches the end. Wraps `windowChunksGo` with fuel equal to the word
count; each recursive step drops `step ≥ 1` words, so this fuel is always
sufficient. -/
def windowChunks (words : List String) (chunkSize step : Nat) : List String :=
  windowChunksGo words.length words chunkSize step

/-- Claim C2: for every pair of vectors with differing lengths, the cosine
similarity computed during search scoring is exactly 0, for any contents of
the two vectors; it is a total function, never an error. -/
theorem cosineSimilarity_dim_mismatch (a b : List ℚ) (h : a.length ≠ b.length) :
    CosineSimilarity a b = 0 := by
  simp [CosineSimilarity, h]

theorem cosineSimilarity_dim_mismatch_witness : CosineSimilarity [1, 2] [1] = 0 :=
  cosineSimilarity_dim_mismatch [1, 2] [1] (by decide)

/-- Claim C3: on a store holding zero documents, `Search` returns an empty result
and no error for any provider (failing or nil included), query, topK and
threshold. -/
theorem search_empty_store (provider : Provider) (es : EmbeddingStore)
    (query : String) (topK : Int) (threshold : ℚ) (h : es.documents = []) :
    search provider es query topK threshold = Except.ok [] := by
  simp [search, h]

theorem search_empty_store_witness :
    search none ⟨[], "", "emb.json"⟩ "query" 5 (1/2) = Except.ok [] ∧
    search (some (fun _ => Except.error "backend down")) ⟨[], "2024-01-01T00:00:00Z", "emb.json"⟩
      "query" (-3) 0 = Except.ok [] :=
  ⟨search_empty_store none ⟨[], "", "emb.json"⟩ "query" 5 (1/2) rfl,
   search_empty_store (some (fun _ => Except.error "backend down"))
     ⟨[], "2024-01-01T00:00:00Z", "emb.json"⟩ "query" (-3) 0 rfl⟩

/-- Claim C10: `AddDocument` appends the new document at the end: the sequence
becomes the old sequence plus the document, the count grows by exactly one,
every previously stored document keeps its content and position, and
`lastUpdated` is untouched — only `Save` stamps it. -/
theorem addDocument_appends (es : EmbeddingStore) (doc : EmbeddingDocument) :
    (addDocument es doc).documents = es.documents ++ [doc] ∧
    (addDocument es doc).documents.length = es.documents.length + 1 ∧
    (addDocument es doc).documents.take es.documents.length = es.documents ∧
    (addDocument es doc).lastUpdated = es.lastUpdated ∧
    (∀ now writeOk, ((save now writeOk es).1).lastUpdated = now) := by
  refine ⟨rfl, by simp [addDocument], ?_, rfl, fun _ _ => rfl⟩
  simp [addDocument, List.take_left]

/-- Claim C7: `IsStale` is true exactly when the timestamp was never set, fails to
parse, or the elapsed time strictly exceeds `maxAgeDays` times 24 hours;
parse failure is always treated as stale. -/
theorem isStale_iff (parse : String → Option Int) (now : Int)
    (es : EmbeddingStore) (days : Int) :
    isStale parse now es days = true ↔
      (es.lastUpdated = "" ∨ parse es.lastUpdated = none ∨
        ∃ t, parse es.lastUpdated = some t ∧ days * 24 * nsPerHour < now - t) := by
  unfold isStale
  by_cases hemp : es.lastUpdated = ""
  · simp [hemp]
  · cases hp : parse es.lastUpdated with
    | none => simp [hemp, hp]
    | some t => simp [hemp, hp]

/-- Claim C8: `Load` succeeds and leaves the store as it is (zero documents on a
fresh store) when the backing file does not exist; any other read failure
and any unmarshal failure is an error; a successful read and parse installs
the decoded contents. -/
theorem load_spec (readFile : String → ReadResult)
    (unmarshal : String → Option (List EmbeddingDocument × String))
    (es : EmbeddingStore) :
    (readFile es.filePath = ReadResult.notExist →
      load readFile unmarshal es = Except.ok es) ∧
    (es.documents = [] → readFile es.filePath = ReadResult.notExist →
      ∃ loaded, load readFile unmarshal es = Except.ok loaded ∧ loaded.documents = []) ∧
    (readFile es.filePath = ReadResult.readFailure →
      ∃ msg, load readFile unmarshal es = Except.error msg) ∧
    (∀ data, readFile es.filePath = ReadResult.ok data → unmarshal data = none →
      ∃ msg, load readFile unmarshal es = Except.error msg) := by
  refine ⟨fun h => ?_, fun hd h => ?_, fun h => ?_, fun data h hu => ?_⟩
  · simp [load, h]
  · exact ⟨es, by simp [load, h], hd⟩
  · exact ⟨"failed to read embeddings file", by simp [load, h]⟩
  · exact ⟨"failed to unmarshal embeddings", by simp [load, h, hu]⟩

theorem load_spec_witness :
    (load (fun _ => ReadResult.notExist) (fun _ => none) ⟨[], "", "emb.json"⟩ =
      Except.ok ⟨[], "", "emb.json"⟩) ∧
    (∃ loaded, load (fun _ => ReadResult.notExist) (fun _ => none) ⟨[], "", "emb.json"⟩ =
      Except.ok loaded ∧ loaded.documents = []) ∧
    (∃ msg, load (fun _ => ReadResult.readFailure) (fun _ => none) ⟨[], "", "emb.json"⟩ =
      Except.error msg) ∧
    (∃ msg, load (fun _ => ReadResult.ok "not json") (fun _ => none) ⟨[], "", "emb.json"⟩ =
      Except.error msg) :=
  ⟨(load_spec (fun _ => ReadResult.notExist) (fun _ => none) ⟨[], "", "emb.json"⟩).1 rfl,
   (load_spec (fun _ => ReadResult.notExist) (fun _ => none) ⟨[], "", "emb.json"⟩).2.1 rfl rfl,
   (load_spec (fun _ => ReadResult.readFailure) (fun _ => none) ⟨[], "", "emb.json"⟩).2.2.1 rfl,
   (load_spec (fun _ => ReadResult.ok "not json") (fun _ => none) ⟨[], "", "emb.json"⟩).2.2.2
     "not json" rfl rfl⟩

/-- Claim C4: `NormalizeEmbedding` returns the vector unchanged when its L2 norm
is exactly zero, and otherwise divides every component by the L2 norm. -/
theorem normalizeEmbedding_spec (v : List ℝ) :
    (l2Norm v = 0 → NormalizeEmbedding v = v) ∧
    (l2Norm v ≠ 0 → NormalizeEmbedding v = v.map (fun x => x / l2Norm v)) := by
  constructor <;> intro h <;> simp [NormalizeEmbedding, h]

theorem normalizeEmbedding_spec_witness :
    NormalizeEmbedding [0, 0, 0] = [0, 0, 0] ∧
    NormalizeEmbedding [3, 4] = [3/5, 4/5] := by
  have hz : l2Norm [0, 0, 0] = 0 := by
    simp [l2Norm]
  have h25 : l2Norm [3, 4] = 5 := by
    have : ((0:ℝ) + 3 * 3 + 4 * 4) = 25 := by norm_num
    simp only [l2Norm, List.foldl, this]
    rw [show (25:ℝ) = 5 ^ 2 by norm_num]
    exact Real.sqrt_sq (by norm_num)
  refine ⟨(normalizeEmbedding_spec [0, 0, 0]).1 hz, ?_⟩
  rw [(normalizeEmbedding_spec [3, 4]).2 (by rw [h25]; norm_num), h25]
  norm_num

/-- Claim C5, recorded as a code bug: `ChunkText` has no guard for
`overlap >= chunkSize`. At `chunkSize = 3`, `overlap = 3` on a five-word
text the advance step is zero, the loop index stays at 0 forever, and the
loop never terminates: no amount of fuel completes it, so the code neither
rejects the parameters nor clamps the step as the specification requires. -/
theorem chunkText_overlap_guard_missing :
    (∀ (fuel : Nat) (acc : List String),
      chunkLoop ["a", "b", "c", "d", "e"] 3 3 fuel 0 acc = ChunkOut.fuelOut) ∧
    ChunkText "a b c d e" 3 3 = ChunkOut.fuelOut := by
  constructor
  · intro fuel
    induction fuel with
    | zero => intro acc; rfl
    | succ n ih =>
      intro acc
      have hstep : chunkLoop ["a", "b", "c", "d", "e"] 3 3 (n + 1) 0 acc =
          chunkLoop ["a", "b", "c", "d", "e"] 3 3 n 0 (acc ++ ["a b c"]) := rfl
      rw [hstep]
      exact ih _
  · decide

theorem windowChunksGo_fuel (c s : Nat) :
    ∀ (fuel : Nat) (w : List String), w.length ≤ fuel →
      windowChunksGo fuel w c s = windowChunksGo w.length w c s := by
  intro fuel
  induction fuel using Nat.strong_induction_on with
  | _ fuel ih =>
    intro w hw
    cases fuel with
    | zero =>
      have hnil : w = [] := List.eq_nil_of_length_eq_zero (Nat.le_zero.mp hw)
      subst hnil
      rfl
    | succ f =>
      cases w with
      | nil => simp [windowChunksGo]
      | cons x xs =>
        simp only [List.length_cons] at hw
        simp only [windowChunksGo, List.length_cons]
        split_ifs with h1 h2 h3
        · rfl
        · rfl
        · rfl
        · have hlen : ((x :: xs).drop s).length ≤ f := by
            simp only [List.length_drop, List.length_cons]
            omega
          have hlen2 : ((x :: xs).drop s).length ≤ xs.length := by
            simp only [List.length_drop, List.length_cons]
            omega
          rw [ih f (by omega) _ hlen, ih xs.length (by omega) _ hlen2]

theorem windowChunks_final (words : List String) (c s : Nat) (hs : s ≠ 0)
    (hnil : words ≠ []) (hle : words.length ≤ c) :
    windowChunks words c s = [" ".intercalate words] := by
  obtain ⟨x, xs, rfl⟩ := List.exists_cons_of_ne_nil hnil
  unfold windowChunks
  simp only [List.length_cons, windowChunksGo]
  rw [if_neg hs, if_neg (List.cons_ne_nil x xs), if_pos (by simpa using hle)]

theorem windowChunks_step (words : List String) (c s : Nat) (hs : s ≠ 0)
    (hgt : c < words.length) :
    windowChunks words c s =
      " ".intercalate (words.take c) :: windowChunks (words.drop s) c s := by
  have hnil : words ≠ [] := by
    intro h
    subst h
    exact absurd hgt (by simp)
  obtain ⟨x, xs, rfl⟩ := List.exists_cons_of_ne_nil hnil
  unfold windowChunks
  simp only [List.length_cons, windowChunksGo]
  rw [if_neg hs, if_neg (List.cons_ne_nil x xs),
    if_neg (by simp only [List.length_cons] at hgt; omega)]
  have hdl : ((x :: xs).drop s).length ≤ xs.length := by
    simp only [List.length_drop, List.length_cons]
    omega
  rw [windowChunksGo_fuel c s xs.length _ hdl]

theorem chunkLoop_eq_windowChunks (w : List String) (c o : Int) (ho : 0 ≤ o) (hco : o < c) :
    ∀ (fuel : Nat) (i : Nat) (acc : List String),
      i < w.length → w.length - i < fuel →
      chunkLoop w c o fuel (i : Int) acc =
        ChunkOut.out (acc ++ windowChunks (w.drop i) c.toNat (c - o).toNat) := by
  intro fuel
  induction fuel with
  | zero =>
    intro i acc hi hf
    omega
  | succ f ih =>
    intro i acc hi hf
    have hilt : (i : Int) < (w.length : Int) := by exact_mod_cast hi
    have hs1 : (c - o).toNat ≠ 0 := by omega
    have hdnil : w.drop i ≠ [] := by
      intro h
      have := congrArg List.length h
      simp only [List.length_drop, List.length_nil] at this
      omega
    simp only [chunkLoop]
    rw [if_pos hilt]
    rw [if_pos (show (0 : Int) ≤ (i : Nat) ∧ ((i : Nat) : Int) ≤
        (if (w.length : Int) < (i : Nat) + c then (w.length : Int) else (i : Nat) + c) from
      ⟨Int.natCast_nonneg i, by split_ifs <;> omega⟩)]
    simp only [Int.toNat_natCast]
    by_cases hbig : (w.length : Int) ≤ (i : Nat) + c
    · have hE : (if (w.length : Int) < (i : Nat) + c then (w.length : Int)
          else (i : Nat) + c) = (w.length : Int) := by
        split_ifs <;> omega
      rw [hE, if_pos le_rfl]
      have htake : ((w.length : Int) - (i : Nat)).toNat = (w.drop i).length := by
        simp only [List.length_drop]
        omega
      rw [htake, List.take_length]
      rw [windowChunks_final (w.drop i) c.toNat (c - o).toNat hs1 hdnil
        (by simp only [List.length_drop]; omega)]
    · have hE : (if (w.length : Int) < (i : Nat) + c then (w.length : Int)
          else (i : Nat) + c) = (i : Nat) + c := by
        split_ifs <;> omega
      rw [hE, if_neg (by omega)]
      have hidx : (i : Nat) + (c - o) = (((i + (c - o).toNat : Nat)) : Int) := by
        push_cast
        omega
      have htake : (((i : Nat) + c - (i : Nat)).toNat) = c.toNat := by omega
      rw [hidx, htake, ih (i + (c - o).toNat) _ (by omega) (by omega)]
      rw [windowChunks_step (w.drop i) c.toNat (c - o).toNat hs1
        (by simp only [List.length_drop]; omega)]
      rw [List.drop_drop]
      simp [List.append_assoc]

/-- Claim C6: for `0 <= overlap < chunkSize`, `ChunkText` collapses whitespace,
trims the ends, and splits on word boundaries into windows of `chunkSize`
words advancing `chunkSize - overlap` words per step, the final chunk being
the remainder at the end of the text (the spec-level `windowChunks`); in
particular the five-word example produces exactly the two specified chunks,
leading, trailing and repeated whitespace are immaterial, and empty or
whitespace-only input yields an empty sequence, not an error. -/
theorem chunkText_spec :
    (∀ (text : String) (c o : Int), 0 ≤ o → o < c →
      ChunkText text c o =
        ChunkOut.out (windowChunks (wordsOf text) c.toNat (c - o).toNat)) ∧
    (∀ (text : String) (c o : Int), wordsOf text = [] →
      ChunkText text c o = ChunkOut.out []) ∧
    ChunkText "a b c d e" 3 1 = ChunkOut.out ["a b c", "c d e"] ∧
    ChunkText " a \t b   c d e " 3 1 = ChunkOut.out ["a b c", "c d e"] := by
  refine ⟨fun text c o ho hco => ?_, fun text c o h => ?_, by decide, by decide⟩
  · by_cases hnil : wordsOf text = []
    · rw [ChunkText, hnil]
      rfl
    · rw [ChunkText, if_neg (by simpa [List.isEmpty_iff] using hnil)]
      have h0 : 0 < (wordsOf text).length := List.length_pos.mpr hnil
      have := chunkLoop_eq_windowChunks (wordsOf text) c o ho hco
        ((wordsOf text).length + 1) 0 [] h0 (by omega)
      simpa using this
  · rw [ChunkText, h]
    rfl

theorem chunkText_spec_witness :
    ChunkText "a b c d e" 3 1 =
      ChunkOut.out (windowChunks (wordsOf "a b c d e") (3 : Int).toNat ((3 : Int) - 1).toNat) ∧
    ChunkText " \t  " 2 0 = ChunkOut.out [] :=
  ⟨chunkText_spec.1 "a b c d e" 3 1 (by decide) (by decide),
   chunkText_spec.2.1 " \t  " 2 0 (by decide)⟩

theorem bubbleMax_perm (x : SearchResult) (l : List SearchResult) :
    ((bubbleMax x l).1 :: (bubbleMax x l).2).Perm (x :: l) := by
  induction l generalizing x with
  | nil => exact List.Perm.refl _
  | cons y ys ih =>
    simp only [bubbleMax]
    split
    · exact (List.Perm.swap x (bubbleMax y ys).1 (bubbleMax y ys).2).trans
        ((ih y).cons x)
    · exact ((List.Perm.swap y (bubbleMax x ys).1 (bubbleMax x ys).2).trans
        ((ih x).cons y)).trans (List.Perm.swap x y ys)

theorem bubbleMax_fst_ge_seed (x : SearchResult) (l : List SearchResult) :
    x.similarity ≤ (bubbleMax x l).1.similarity := by
  induction l generalizing x with
  | nil => exact le_rfl
  | cons y ys ih =>
    simp only [bubbleMax]
    split
    · exact le_of_lt (lt_of_lt_of_le (by assumption) (ih y))
    · exact ih x

theorem bubbleMax_fst_ge_mem (x : SearchResult) (l : List SearchResult) :
    ∀ z ∈ (bubbleMax x l).2, z.similarity ≤ (bubbleMax x l).1.similarity := by
  induction l generalizing x with
  | nil => intro z hz; simp [bubbleMax] at hz
  | cons y ys ih =>
    simp only [bubbleMax]
    split
    · intro z hz
      rcases List.mem_cons.mp hz with hz | hz
      · subst hz
        exact le_of_lt (lt_of_lt_of_le (by assumption) (bubbleMax_fst_ge_seed y ys))
      · exact ih y z hz
    · intro z hz
      rcases List.mem_cons.mp hz with hz | hz
      · subst hz
        exact le_trans (le_of_not_lt (by assumption)) (bubbleMax_fst_ge_seed x ys)
      · exact ih x z hz

theorem exchangeSortGo_perm :
    ∀ (fuel : Nat) (l : List SearchResult), l.length ≤ fuel →
      (exchangeSortGo fuel l).Perm l := by
  intro fuel
  induction fuel with
  | zero =>
    intro l hl
    rw [List.eq_nil_of_length_eq_zero (Nat.le_zero.mp hl)]
    exact List.Perm.refl _
  | succ f ih =>
    intro l hl
    cases l with
    | nil => exact List.Perm.refl _
    | cons x xs =>
      simp only [exchangeSortGo]
      have hlen : (bubbleMax x xs).2.length ≤ f := by
        rw [bubbleMax_snd_length]
        simpa using hl
      exact (((ih _ hlen).cons (bubbleMax x xs).1).trans (bubbleMax_perm x xs))

theorem exchangeSortGo_sorted :
    ∀ (fuel : Nat) (l : List SearchResult), l.length ≤ fuel →
      (exchangeSortGo fuel l).Pairwise (fun a b => b.similarity ≤ a.similarity) := by
  intro fuel
  induction fuel with
  | zero =>
    intro l hl
    rw [List.eq_nil_of_length_eq_zero (Nat.le_zero.mp hl)]
    exact List.Pairwise.nil
  | succ f ih =>
    intro l hl
    cases l with
    | nil => exact List.Pairwise.nil
    | cons x xs =>
      simp only [exchangeSortGo]
      have hlen : (bubbleMax x xs).2.length ≤ f := by
        rw [bubbleMax_snd_length]
        simpa using hl
      refine List.Pairwise.cons ?_ (ih _ hlen)
      intro z hz
      exact bubbleMax_fst_ge_mem x xs z ((exchangeSortGo_perm f _ hlen).mem_iff.mp hz)

theorem exchangeSort_perm (l : List SearchResult) : (exchangeSort l).Perm l :=
  exchangeSortGo_perm l.length l le_rfl

theorem exchangeSort_sorted (l : List SearchResult) :
    (exchangeSort l).Pairwise (fun a b => b.similarity ≤ a.similarity) :=
  exchangeSortGo_sorted l.length l le_rfl

theorem scoreAndFilter_eq (qe : List ℚ) (t : ℚ) (docs : List EmbeddingDocument) :
    scoreAndFilter qe t docs =
      (docs.map (fun d => SearchResult.mk d (CosineSimilarity qe d.embedding))).filter
        (fun r => t ≤ r.similarity) := by
  induction docs with
  | nil => rfl
  | cons d ds ih =>
    simp only [scoreAndFilter, List.map_cons, List.filter_cons]
    by_cases h : t ≤ CosineSimilarity qe d.embedding
    · simp [h, ih]
    · simp [h, ih]

/-- Claim C1: on a non-empty store whose provider returns the query embedding,
`Search` returns exactly the stored documents whose cosine similarity to the
query embedding is at least the threshold (inclusive), in descending
similarity order, truncated to the first `topK` after sorting when
`topK > 0` and more results passed the threshold; for `topK <= 0` every
document passing the threshold is returned. -/
theorem search_correct (provider : Provider) (es : EmbeddingStore) (query : String)
    (topK : Int) (threshold : ℚ) (qe : List ℚ)
    (hne : es.documents ≠ [])
    (hq : getEmbedding provider query = Except.ok qe) :
    ∃ ranked : List SearchResult,
      ranked.Perm ((es.documents.map
          (fun d => SearchResult.mk d (CosineSimilarity qe d.embedding))).filter
            (fun r => threshold ≤ r.similarity)) ∧
      ranked.Pairwise (fun a b => b.similarity ≤ a.similarity) ∧
      search provider es query topK threshold =
        Except.ok (if 0 < topK ∧ topK < (ranked.length : Int)
          then ranked.take topK.toNat else ranked) := by
  refine ⟨exchangeSort (scoreAndFilter qe threshold es.documents), ?_, ?_, ?_⟩
  · rw [← scoreAndFilter_eq]
    exact exchangeSort_perm _
  · exact exchangeSort_sorted _
  · unfold search
    rw [if_neg (by simpa [List.isEmpty_iff] using hne), hq]
    dsimp only
    split <;> rfl

theorem search_correct_witness :
    ∃ ranked : List SearchResult,
      ranked.Perm ((([⟨"2", "two", "", "", [1/2], 0⟩, ⟨"3", "three", "", "", [1/5], 0⟩,
          ⟨"1", "one", "", "", [9/10], 0⟩] : List EmbeddingDocument).map
          (fun d => SearchResult.mk d (CosineSimilarity [1] d.embedding))).filter
            (fun r => (3/10 : ℚ) ≤ r.similarity)) ∧
      ranked.Pairwise (fun a b => b.similarity ≤ a.similarity) ∧
      search (some (fun _ => Except.ok [1]))
          ⟨[⟨"2", "two", "", "", [1/2], 0⟩, ⟨"3", "three", "", "", [1/5], 0⟩,
            ⟨"1", "one", "", "", [9/10], 0⟩], "", "emb.json"⟩ "q" 2 (3/10) =
        Except.ok (if 0 < (2 : Int) ∧ (2 : Int) < (ranked.length : Int)
          then ranked.take (2 : Int).toNat else ranked) :=
  search_correct (some (fun _ => Except.ok [1]))
    ⟨[⟨"2", "two", "", "", [1/2], 0⟩, ⟨"3", "three", "", "", [1/5], 0⟩,
      ⟨"1", "one", "", "", [9/10], 0⟩], "", "emb.json"⟩ "q" 2 (3/10) [1]
    (by decide) rfl

end SlackAgent
